import Mathlib

/-!
Verification of the fecs state-access kernel against its specification.

The definitions below are shallow embeddings of the Rust sources:
  - src/borrow.rs        (AtomicRefCell and its borrow flag)
  - src/resources.rs     (BorrowFlag, OwnedResources, RefResources)
  - src/system.rs        (Executor::handle_events, EventHandlerStore, EventStore)
  - src/erased_vec.rs    (ErasedVec)
  - src/world/allocator.rs (EntityIndexAllocator)

Machine integers are modelled as Nat with explicit reduction modulo 2^32
where the u32 arithmetic can wrap.
-/

namespace Fecs

/-! ## Model of src/borrow.rs: AtomicRefCell borrow flag

The cell guards a value with an AtomicU32 `flag`: MSB set means mutably
borrowed, the other bits count immutable borrows. -/

def U32MOD : Nat := 4294967296

def MUTABLE_MASK : Nat := 2147483648

def NO_BORROWS : Nat := 0

/-- Whether `flag & MUTABLE_MASK != 0`, i.e. bit 31 is set. -/
def mutBitSet (flag : Nat) : Bool := flag.testBit 31

inductive BorrowError where
  | mutablyBorrowed
  | immutablyBorrowed
deriving DecidableEq, Repr

/-- AtomicRefCell::try_borrow: `fetch_add(1)` on the flag, then fail iff the
old value had the mutable bit set.  The increment happens even on failure
(a phantom borrow, cleared by `release_mut`). Returns (result, new flag). -/
def tryBorrow (flag : Nat) : Except BorrowError Unit × Nat :=
  let newFlag := (flag + 1) % U32MOD
  if mutBitSet flag then (.error .mutablyBorrowed, newFlag)
  else (.ok (), newFlag)

/-- AtomicRefCell::try_borrow_mut: compare-and-swap NO_BORROWS → MUTABLE_MASK;
succeeds only when the flag was exactly 0, otherwise the flag is unchanged. -/
def tryBorrowMut (flag : Nat) : Except BorrowError Unit × Nat :=
  if flag = NO_BORROWS then (.ok (), MUTABLE_MASK)
  else (.error .immutablyBorrowed, flag)

/-- AtomicRefCell::release_ref: `fetch_sub(1)` (wrapping on u32). -/
def releaseRef (flag : Nat) : Nat := (flag + (U32MOD - 1)) % U32MOD

/-- AtomicRefCell::release_mut: store NO_BORROWS. -/
def releaseMut (_flag : Nat) : Nat := NO_BORROWS

/-- One AtomicRefCell state: the concrete u32 flag together with ghost
bookkeeping of the outstanding guards (shared guard count, exclusive guard). -/
structure CellState where
  flag : Nat
  shared : Nat
  mutHeld : Bool
deriving DecidableEq, Repr

/-- Sequential transitions of one AtomicRefCell: each constructor is one call
to try_borrow / try_borrow_mut, or the drop of an outstanding guard. -/
inductive CellStep : CellState → CellState → Prop where
  | borrowOk (f s : Nat) (m : Bool) (h : mutBitSet f = false) :
      CellStep ⟨f, s, m⟩ ⟨(f + 1) % U32MOD, s + 1, m⟩
  | borrowFail (f s : Nat) (m : Bool) (h : mutBitSet f = true) :
      CellStep ⟨f, s, m⟩ ⟨(f + 1) % U32MOD, s, m⟩
  | borrowMutOk (f s : Nat) (m : Bool) (h : f = NO_BORROWS) :
      CellStep ⟨f, s, m⟩ ⟨MUTABLE_MASK, s, true⟩
  | borrowMutFail (f s : Nat) (m : Bool) (h : f ≠ NO_BORROWS) :
      CellStep ⟨f, s, m⟩ ⟨f, s, m⟩
  | releaseShared (f s : Nat) (m : Bool) (h : 0 < s) :
      CellStep ⟨f, s, m⟩ ⟨releaseRef f, s - 1, m⟩
  | releaseExclusive (f s : Nat) :
      CellStep ⟨f, s, true⟩ ⟨releaseMut f, s, false⟩

/-- States of one AtomicRefCell reachable in `n` sequential operations from
the freshly constructed cell (flag = NO_BORROWS, no guards). -/
inductive CellReach : Nat → CellState → Prop where
  | init : CellReach 0 ⟨NO_BORROWS, 0, false⟩
  | step {n : Nat} {s t : CellState} :
      CellReach n s → CellStep s t → CellReach (n + 1) t

/-- Invariant tying the u32 flag to the ghost guard counts after at most `n`
operations: with an exclusive guard held the flag is MUTABLE_MASK plus at
most `n` phantom increments and no shared guard exists; otherwise the flag
equals the shared guard count. -/
def CellInv (n : Nat) (s : CellState) : Prop :=
  (s.mutHeld = true → s.shared = 0 ∧ ∃ p, p ≤ n ∧ s.flag = MUTABLE_MASK + p) ∧
  (s.mutHeld = false → s.flag = s.shared ∧ s.shared ≤ n)

theorem mutBit_arith (f : Nat) : mutBitSet f = true ↔ f / 2147483648 % 2 = 1 := by
  simp [mutBitSet, Nat.testBit_to_div_mod]

theorem mutBit_true {f : Nat} (h : mutBitSet f = true) : f / 2147483648 % 2 = 1 :=
  (mutBit_arith f).mp h

theorem mutBit_false {f : Nat} (h : mutBitSet f = false) : f / 2147483648 % 2 = 0 := by
  have h2 : ¬ f / 2147483648 % 2 = 1 := by
    intro hc
    have := (mutBit_arith f).mpr hc
    rw [h] at this
    exact Bool.noConfusion this
  omega

theorem mutBit_false_of {f : Nat} (h : f / 2147483648 % 2 = 0) :
    mutBitSet f = false := by
  cases hb : mutBitSet f
  · rfl
  · exact absurd (mutBit_true hb) (by omega)

theorem cellInv {n : Nat} {s : CellState} (hn : n < MUTABLE_MASK)
    (h : CellReach n s) : CellInv n s := by
  unfold MUTABLE_MASK at hn
  induction h with
  | init =>
    unfold CellInv
    exact ⟨fun hmt => Bool.noConfusion hmt, fun _ => by simp [NO_BORROWS]⟩
  | @step n s t hr hstep ih =>
    have hn' : n < 2147483648 := by omega
    have ihv := ih (by omega)
    cases hstep with
    | borrowOk f sh m hb =>
      have hb' := mutBit_false hb
      unfold CellInv at ihv ⊢
      dsimp only at ihv ⊢
      obtain ⟨hm, hnm⟩ := ihv
      cases m with
      | true =>
        obtain ⟨hs0, p, hp, hf⟩ := hm rfl
        exfalso
        unfold MUTABLE_MASK at hf
        omega
      | false =>
        obtain ⟨hf, hsle⟩ := hnm rfl
        refine ⟨fun hmt => Bool.noConfusion hmt, fun _ => ?_⟩
        unfold U32MOD
        omega
    | borrowFail f sh m hb =>
      have hb' := mutBit_true hb
      unfold CellInv at ihv ⊢
      dsimp only at ihv ⊢
      obtain ⟨hm, hnm⟩ := ihv
      cases m with
      | false =>
        obtain ⟨hf, hsle⟩ := hnm rfl
        exfalso
        omega
      | true =>
        obtain ⟨hs0, p, hp, hf⟩ := hm rfl
        refine ⟨fun _ => ⟨hs0, p + 1, by omega, ?_⟩, fun hmf => Bool.noConfusion hmf⟩
        unfold MUTABLE_MASK at hf ⊢
        unfold U32MOD
        omega
    | borrowMutOk f sh m hb =>
      unfold NO_BORROWS at hb
      unfold CellInv at ihv ⊢
      dsimp only at ihv ⊢
      obtain ⟨hm, hnm⟩ := ihv
      cases m with
      | true =>
        obtain ⟨hs0, p, hp, hf⟩ := hm rfl
        exfalso
        unfold MUTABLE_MASK at hf
        omega
      | false =>
        obtain ⟨hf, hsle⟩ := hnm rfl
        exact ⟨fun _ => ⟨by omega, 0, by omega, by omega⟩, fun hmf => Bool.noConfusion hmf⟩
    | borrowMutFail f sh m hb =>
      unfold CellInv at ihv ⊢
      dsimp only at ihv ⊢
      obtain ⟨hm, hnm⟩ := ihv
      refine ⟨fun hmt => ?_, fun hmf => ?_⟩
      · obtain ⟨h1, p, hp, hf⟩ := hm hmt
        exact ⟨h1, p, by omega, hf⟩
      · obtain ⟨h1, h2⟩ := hnm hmf
        exact ⟨h1, by omega⟩
    | releaseShared f sh m hs =>
      unfold CellInv at ihv ⊢
      dsimp only at ihv ⊢
      obtain ⟨hm, hnm⟩ := ihv
      cases m with
      | true =>
        obtain ⟨hs0, _⟩ := hm rfl
        exact absurd hs (by omega)
      | false =>
        obtain ⟨hf, hsle⟩ := hnm rfl
        refine ⟨fun hmt => Bool.noConfusion hmt, fun _ => ?_⟩
        unfold releaseRef U32MOD
        omega
    | releaseExclusive f sh =>
      unfold CellInv at ihv ⊢
      dsimp only at ihv ⊢
      obtain ⟨hm, _⟩ := ihv
      obtain ⟨hs0, _⟩ := hm rfl
      refine ⟨fun hmt => Bool.noConfusion hmt, fun _ => ?_⟩
      unfold releaseMut NO_BORROWS
      omega

theorem cellReach_shared (N : Nat) (h : N ≤ MUTABLE_MASK) :
    CellReach N ⟨N, N, false⟩ := by
  unfold MUTABLE_MASK at h
  induction N with
  | zero => exact CellReach.init
  | succ k ih =>
    have hk : CellReach k ⟨k, k, false⟩ := ih (by omega)
    have hbit : mutBitSet k = false := mutBit_false_of (by omega)
    have hstep := CellStep.borrowOk k k false hbit
    have hmod : (k + 1) % U32MOD = k + 1 := by
      apply Nat.mod_eq_of_lt
      unfold U32MOD
      omega
    rw [hmod] at hstep
    exact CellReach.step hk hstep

/-! ## Model of src/resources.rs: BorrowFlag

The per-resource flag: u32::MAX means mutably borrowed, otherwise the value
is the count of immutable borrows. -/

def U32MAX : Nat := 4294967295

/-- BorrowFlag::obtain_mutable: compare-and-swap 0 → u32::MAX; returns
(success, new flag). -/
def obtainMutable (f : Nat) : Bool × Nat :=
  if f = 0 then (true, U32MAX) else (false, f)

/-- BorrowFlag::obtain_immutable: load; fail if the value is u32::MAX, else
compare-and-swap val → val+1 (sequentially the CAS always succeeds). -/
def obtainImmutable (f : Nat) : Bool × Nat :=
  if f = U32MAX then (false, f) else (true, (f + 1) % U32MOD)

/-- BorrowFlag::release_mutable: store 0. -/
def releaseMutable (_f : Nat) : Nat := 0

/-- BorrowFlag::release_immutable: `fetch_sub(1)` (wrapping on u32). -/
def releaseImmutable (f : Nat) : Nat := (f + (U32MOD - 1)) % U32MOD

/-- Sequential transitions of one BorrowFlag, with the same ghost guard
bookkeeping as `CellStep`. -/
inductive FlagStep : CellState → CellState → Prop where
  | immOk (f s : Nat) (m : Bool) (h : f ≠ U32MAX) :
      FlagStep ⟨f, s, m⟩ ⟨(f + 1) % U32MOD, s + 1, m⟩
  | immFail (f s : Nat) (m : Bool) (h : f = U32MAX) :
      FlagStep ⟨f, s, m⟩ ⟨f, s, m⟩
  | mutOk (f s : Nat) (m : Bool) (h : f = 0) :
      FlagStep ⟨f, s, m⟩ ⟨U32MAX, s, true⟩
  | mutFail (f s : Nat) (m : Bool) (h : f ≠ 0) :
      FlagStep ⟨f, s, m⟩ ⟨f, s, m⟩
  | releaseImm (f s : Nat) (m : Bool) (h : 0 < s) :
      FlagStep ⟨f, s, m⟩ ⟨releaseImmutable f, s - 1, m⟩
  | releaseMut (f s : Nat) :
      FlagStep ⟨f, s, true⟩ ⟨releaseMutable f, s, false⟩

/-- BorrowFlag states reachable in `n` sequential operations from the
default flag (0, no guards). -/
inductive FlagReach : Nat → CellState → Prop where
  | init : FlagReach 0 ⟨0, 0, false⟩
  | step {n : Nat} {s t : CellState} :
      FlagReach n s → FlagStep s t → FlagReach (n + 1) t

/-- Invariant for the BorrowFlag: mutably borrowed iff the flag is u32::MAX,
in which case no shared guard exists; otherwise the flag counts the shared
guards. -/
def FlagInv (n : Nat) (s : CellState) : Prop :=
  (s.mutHeld = true → s.flag = U32MAX ∧ s.shared = 0) ∧
  (s.mutHeld = false → s.flag = s.shared ∧ s.shared ≤ n)

theorem flagInv {n : Nat} {s : CellState} (hn : n < U32MAX)
    (h : FlagReach n s) : FlagInv n s := by
  unfold U32MAX at hn
  induction h with
  | init =>
    exact ⟨fun hmt => Bool.noConfusion hmt, fun _ => by simp⟩
  | @step n s t hr hstep ih =>
    have ihv := ih (by omega)
    cases hstep with
    | immOk f sh m hb =>
      unfold U32MAX at hb
      unfold FlagInv at ihv ⊢
      dsimp only at ihv ⊢
      obtain ⟨hm, hnm⟩ := ihv
      cases m with
      | true =>
        obtain ⟨hf, hs0⟩ := hm rfl
        unfold U32MAX at hf
        exact absurd hf hb
      | false =>
        obtain ⟨hf, hsle⟩ := hnm rfl
        refine ⟨fun hmt => Bool.noConfusion hmt, fun _ => ?_⟩
        unfold U32MOD
        omega
    | immFail f sh m hb =>
      unfold FlagInv at ihv ⊢
      dsimp only at ihv ⊢
      obtain ⟨hm, hnm⟩ := ihv
      cases m with
      | false =>
        obtain ⟨hf, hsle⟩ := hnm rfl
        exfalso
        unfold U32MAX at hb
        omega
      | true =>
        obtain ⟨hf, hs0⟩ := hm rfl
        exact ⟨fun _ => ⟨hf, hs0⟩, fun hmf => Bool.noConfusion hmf⟩
    | mutOk f sh m hb =>
      unfold FlagInv at ihv ⊢
      dsimp only at ihv ⊢
      obtain ⟨hm, hnm⟩ := ihv
      cases m with
      | true =>
        obtain ⟨hf, hs0⟩ := hm rfl
        exfalso
        unfold U32MAX at hf
        omega
      | false =>
        obtain ⟨hf, hsle⟩ := hnm rfl
        exact ⟨fun _ => ⟨rfl, by omega⟩, fun hmf => Bool.noConfusion hmf⟩
    | mutFail f sh m hb =>
      unfold FlagInv at ihv ⊢
      dsimp only at ihv ⊢
      obtain ⟨hm, hnm⟩ := ihv
      refine ⟨hm, fun hmf => ?_⟩
      obtain ⟨h1, h2⟩ := hnm hmf
      exact ⟨h1, by omega⟩
    | releaseImm f sh m hs =>
      unfold FlagInv at ihv ⊢
      dsimp only at ihv ⊢
      obtain ⟨hm, hnm⟩ := ihv
      cases m with
      | true =>
        obtain ⟨_, hs0⟩ := hm rfl
        exact absurd hs (by omega)
      | false =>
        obtain ⟨hf, hsle⟩ := hnm rfl
        refine ⟨fun hmt => Bool.noConfusion hmt, fun _ => ?_⟩
        unfold releaseImmutable U32MOD
        omega
    | releaseMut f sh =>
      unfold FlagInv at ihv ⊢
      dsimp only at ihv ⊢
      obtain ⟨hm, _⟩ := ihv
      obtain ⟨_, hs0⟩ := hm rfl
      refine ⟨fun hmt => Bool.noConfusion hmt, fun _ => ?_⟩
      unfold releaseMutable
      omega

theorem flagReach_shared (N : Nat) (h : N ≤ U32MAX) :
    FlagReach N ⟨N, N, false⟩ := by
  unfold U32MAX at h
  induction N with
  | zero => exact FlagReach.init
  | succ k ih =>
    have hk : FlagReach k ⟨k, k, false⟩ := ih (by omega)
    have hne : k ≠ U32MAX := by
      unfold U32MAX
      omega
    have hstep := FlagStep.immOk k k false hne
    have hmod : (k + 1) % U32MOD = k + 1 := by
      apply Nat.mod_eq_of_lt
      unfold U32MOD
      omega
    rw [hmod] at hstep
    exact FlagReach.step hk hstep

/-- C1 counterexample: the claim requires any borrow attempted while an
exclusive borrow is outstanding to fail with the exclusive-conflict error
(MutablyBorrowed for the AtomicRefCell).  In the reachable state holding
one exclusive guard (flag = MUTABLE_MASK), an exclusive attempt via
try_borrow_mut fails with ImmutablyBorrowed — the error the claim reserves
for shared conflicts — and not with MutablyBorrowed: try_borrow_mut has a
single error type for every conflict. -/
theorem c1_exclusive_error_counterexample :
    CellReach 1 ⟨MUTABLE_MASK, 0, true⟩ ∧
    tryBorrowMut MUTABLE_MASK = (.error .immutablyBorrowed, MUTABLE_MASK) ∧
    (tryBorrowMut MUTABLE_MASK).1 ≠ .error .mutablyBorrowed := by
  refine ⟨CellReach.step CellReach.init
    (CellStep.borrowMutOk NO_BORROWS 0 false rfl), rfl, ?_⟩
  intro hc
  exact BorrowError.noConfusion (Except.error.inj hc)

/-- C1 (amended): borrow exclusivity of the runtime borrow cells.  For the
AtomicRefCell: in every state reachable by fewer than 2^31 sequential
operations, an exclusive guard never coexists with a shared guard; an
exclusive borrow attempted while any borrow — shared or exclusive — is
outstanding fails with ImmutablyBorrowed (try_borrow_mut has no distinct
exclusive-conflict error; see the counterexample) and leaves the flag
unchanged; while an exclusive borrow is outstanding, a shared attempt
fails with MutablyBorrowed; and for every N up to 2^31 a state with N
coexisting shared borrows is reachable.  The analogous properties hold of
the resource BorrowFlag (obtain_mutable / obtain_immutable return false on
the corresponding conflicts). -/
theorem c1_borrow_exclusivity :
    (∀ (n : Nat) (s : CellState), n < MUTABLE_MASK → CellReach n s →
      ¬(s.mutHeld = true ∧ 0 < s.shared) ∧
      (0 < s.shared →
        tryBorrowMut s.flag = (.error .immutablyBorrowed, s.flag)) ∧
      (s.mutHeld = true →
        (tryBorrow s.flag).1 = .error .mutablyBorrowed ∧
        tryBorrowMut s.flag = (.error .immutablyBorrowed, s.flag))) ∧
    (∀ N : Nat, N ≤ MUTABLE_MASK →
      ∃ s : CellState, CellReach N s ∧ s.shared = N ∧ s.mutHeld = false) ∧
    (∀ (n : Nat) (s : CellState), n < U32MAX → FlagReach n s →
      ¬(s.mutHeld = true ∧ 0 < s.shared) ∧
      (0 < s.shared → obtainMutable s.flag = (false, s.flag)) ∧
      (s.mutHeld = true →
        obtainImmutable s.flag = (false, s.flag) ∧
        obtainMutable s.flag = (false, s.flag))) ∧
    (∀ N : Nat, N ≤ U32MAX →
      ∃ s : CellState, FlagReach N s ∧ s.shared = N ∧ s.mutHeld = false) := by
  refine ⟨fun n s hn h => ?_, fun N hN => ⟨⟨N, N, false⟩, cellReach_shared N hN, rfl, rfl⟩,
    fun n s hn h => ?_, fun N hN => ⟨⟨N, N, false⟩, flagReach_shared N hN, rfl, rfl⟩⟩
  · obtain ⟨hm, hnm⟩ := cellInv hn h
    refine ⟨?_, ?_, ?_⟩
    · rintro ⟨hmt, hsp⟩
      obtain ⟨hs0, _⟩ := hm hmt
      omega
    · intro hsp
      have hflag : s.flag ≠ 0 := by
        cases hmut : s.mutHeld with
        | true =>
          obtain ⟨hs0, _⟩ := hm hmut
          omega
        | false =>
          obtain ⟨hf, _⟩ := hnm hmut
          omega
      simp [tryBorrowMut, NO_BORROWS, hflag]
    · intro hmt
      obtain ⟨hs0, p, hp, hf⟩ := hm hmt
      have hbit : mutBitSet s.flag = true := by
        apply (mutBit_arith s.flag).mpr
        rw [hf]
        unfold MUTABLE_MASK at *
        omega
      have hflag : s.flag ≠ 0 := by
        rw [hf]
        unfold MUTABLE_MASK
        omega
      constructor
      · simp [tryBorrow, hbit]
      · simp [tryBorrowMut, NO_BORROWS, hflag]
  · obtain ⟨hm, hnm⟩ := flagInv hn h
    refine ⟨?_, ?_, ?_⟩
    · rintro ⟨hmt, hsp⟩
      obtain ⟨_, hs0⟩ := hm hmt
      omega
    · intro hsp
      have hflag : s.flag ≠ 0 := by
        cases hmut : s.mutHeld with
        | true =>
          obtain ⟨hf, _⟩ := hm hmut
          rw [hf]
          unfold U32MAX
          omega
        | false =>
          obtain ⟨hf, _⟩ := hnm hmut
          omega
      simp [obtainMutable, hflag]
    · intro hmt
      obtain ⟨hf, hs0⟩ := hm hmt
      constructor
      · simp [obtainImmutable, hf]
      · have hflag : s.flag ≠ 0 := by
          rw [hf]
          unfold U32MAX
          omega
        simp [obtainMutable, hflag]

theorem c1_borrow_exclusivity_witness :
    tryBorrowMut (1 : Nat) = (.error .immutablyBorrowed, 1) ∧
    (tryBorrow MUTABLE_MASK).1 = .error .mutablyBorrowed ∧
    obtainMutable (1 : Nat) = (false, 1) := by
  have hshared : CellReach 1 ⟨1, 1, false⟩ := cellReach_shared 1 (by decide)
  have hmut : CellReach 1 ⟨MUTABLE_MASK, 0, true⟩ :=
    CellReach.step CellReach.init (CellStep.borrowMutOk NO_BORROWS 0 false rfl)
  have hfshared : FlagReach 1 ⟨1, 1, false⟩ := flagReach_shared 1 (by decide)
  refine ⟨?_, ?_, ?_⟩
  · exact (c1_borrow_exclusivity.1 1 ⟨1, 1, false⟩ (by decide) hshared).2.1 (by decide)
  · exact ((c1_borrow_exclusivity.1 1 ⟨MUTABLE_MASK, 0, true⟩ (by decide) hmut).2.2 rfl).1
  · exact (c1_borrow_exclusivity.2.2.1 1 ⟨1, 1, false⟩ (by decide) hfshared).2.1 (by decide)

/-- C2: once every outstanding guard of an AtomicRefCell has been released
(no shared guard, no exclusive guard), the flag is back to NO_BORROWS —
even when failed shared attempts left phantom increments while an exclusive
borrow was held, since release_mut stores zero — so a subsequent
try_borrow_mut succeeds. -/
theorem c2_release_restores_availability {n : Nat} {s : CellState}
    (hn : n < MUTABLE_MASK) (h : CellReach n s)
    (hshared : s.shared = 0) (hmut : s.mutHeld = false) :
    s.flag = NO_BORROWS ∧ tryBorrowMut s.flag = (.ok (), MUTABLE_MASK) := by
  obtain ⟨_, hnm⟩ := cellInv hn h
  obtain ⟨hf, _⟩ := hnm hmut
  rw [hshared] at hf
  refine ⟨hf, ?_⟩
  rw [hf]
  simp [tryBorrowMut, NO_BORROWS]

theorem c2_release_restores_availability_witness :
    (⟨NO_BORROWS, 0, false⟩ : CellState).flag = NO_BORROWS ∧
    tryBorrowMut (⟨NO_BORROWS, 0, false⟩ : CellState).flag =
      (.ok (), MUTABLE_MASK) := by
  have h1 : CellReach 1 ⟨MUTABLE_MASK, 0, true⟩ :=
    CellReach.step CellReach.init (CellStep.borrowMutOk NO_BORROWS 0 false rfl)
  have h2 : CellReach 2 ⟨(MUTABLE_MASK + 1) % U32MOD, 0, true⟩ :=
    CellReach.step h1 (CellStep.borrowFail MUTABLE_MASK 0 true (by decide))
  have h3 : CellReach 3 ⟨((MUTABLE_MASK + 1) % U32MOD + 1) % U32MOD, 0, true⟩ :=
    CellReach.step h2 (CellStep.borrowFail _ 0 true (by decide))
  have h4 : CellReach 4 ⟨NO_BORROWS, 0, false⟩ :=
    CellReach.step h3 (CellStep.releaseExclusive _ 0)
  exact c2_release_restores_availability (by decide) h4 rfl rfl

/-! ## Model of src/resources.rs: OwnedResources and RefResources

Type keys and stored values are abstracted as Nat.  A container is an
association list of (type-key, borrow flag, value); the HashMap lookup and
the ArrayVec find-first probe both resolve to the first entry with the key.
Lookups return the result together with the updated container, since a
successful borrow mutates the entry's flag. -/

abbrev TypeId := Nat

abbrev Val := Nat

inductive ResourceError where
  | notFound
  | alreadyBorrowed
deriving DecidableEq, Repr

abbrev ResMap := List (TypeId × Nat × Val)

/-- OwnedResources::insert: replaces the entry under the same type-key with
a fresh default BorrowFlag (0) and the new value, or adds a new entry. -/
def insertRes (t : TypeId) (v : Val) : ResMap → ResMap
  | [] => [(t, 0, v)]
  | (t0, f0, v0) :: rest =>
    if t0 = t then (t, 0, v) :: rest
    else (t0, f0, v0) :: insertRes t v rest

/-- First entry stored under a type-key, as (flag, value). -/
def findRes (t : TypeId) : ResMap → Option (Nat × Val)
  | [] => none
  | (t0, f0, v0) :: rest => if t0 = t then some (f0, v0) else findRes t rest

/-- OwnedResources::try_get: look up the type-key (NotFound if absent), then
obtain_immutable on its flag (AlreadyBorrowed on failure). -/
def tryGetOwned (t : TypeId) : ResMap → Except ResourceError Val × ResMap
  | [] => (.error .notFound, [])
  | (t0, f0, v0) :: rest =>
    if t0 = t then
      match obtainImmutable f0 with
      | (true, f1) => (.ok v0, (t0, f1, v0) :: rest)
      | (false, _) => (.error .alreadyBorrowed, (t0, f0, v0) :: rest)
    else
      let r := tryGetOwned t rest
      (r.1, (t0, f0, v0) :: r.2)

/-- OwnedResources::try_get_mut: look up the type-key (NotFound if absent),
then obtain_mutable on its flag (AlreadyBorrowed on failure). -/
def tryGetMutOwned (t : TypeId) : ResMap → Except ResourceError Val × ResMap
  | [] => (.error .notFound, [])
  | (t0, f0, v0) :: rest =>
    if t0 = t then
      match obtainMutable f0 with
      | (true, f1) => (.ok v0, (t0, f1, v0) :: rest)
      | (false, _) => (.error .alreadyBorrowed, (t0, f0, v0) :: rest)
    else
      let r := tryGetMutOwned t rest
      (r.1, (t0, f0, v0) :: r.2)

/-- OwnedResources::get = try_get().unwrap(): `none` models the panic. -/
def getOwned (t : TypeId) (r : ResMap) : Option Val :=
  match (tryGetOwned t r).1 with
  | .ok v => some v
  | .error _ => none

/-- OwnedResources::get_mut = try_get_mut().unwrap(): `none` models the
panic. -/
def getMutOwned (t : TypeId) (r : ResMap) : Option Val :=
  match (tryGetMutOwned t r).1 with
  | .ok v => some v
  | .error _ => none

/-- RefResources: the fixed small set of aliased entries layered over an
inner owned container. -/
structure RefRes where
  refs : ResMap
  inner : ResMap
deriving DecidableEq, Repr

/-- RefResources::try_get: probe the aliased set first; `or_else` then sends
EVERY failure of the probe — miss or borrow conflict — to the inner
container.  On a probe failure the aliased flags are untouched. -/
def tryGetRef (t : TypeId) (r : RefRes) : Except ResourceError Val × RefRes :=
  match tryGetOwned t r.refs with
  | (.ok v, refs1) => (.ok v, ⟨refs1, r.inner⟩)
  | (.error _, _) =>
    let res := tryGetOwned t r.inner
    (res.1, ⟨r.refs, res.2⟩)

/-- RefResources::try_get_mut, same or_else structure as try_get. -/
def tryGetMutRef (t : TypeId) (r : RefRes) : Except ResourceError Val × RefRes :=
  match tryGetMutOwned t r.refs with
  | (.ok v, refs1) => (.ok v, ⟨refs1, r.inner⟩)
  | (.error _, _) =>
    let res := tryGetMutOwned t r.inner
    (res.1, ⟨r.refs, res.2⟩)

theorem findRes_none_of {t : TypeId} {l : ResMap} (h : ∀ e ∈ l, e.1 ≠ t) :
    findRes t l = none := by
  induction l with
  | nil => rfl
  | cons e rest ih =>
    obtain ⟨t0, f0, v0⟩ := e
    have ht : t0 ≠ t := h (t0, f0, v0) (List.mem_cons_self _ _)
    simp only [findRes, if_neg ht]
    exact ih fun e he => h e (List.mem_cons_of_mem _ he)

theorem tryGetOwned_none {t : TypeId} {l : ResMap} (h : findRes t l = none) :
    tryGetOwned t l = (.error .notFound, l) := by
  induction l with
  | nil => rfl
  | cons e rest ih =>
    obtain ⟨t0, f0, v0⟩ := e
    by_cases ht : t0 = t
    · simp [findRes, ht] at h
    · simp only [findRes, if_neg ht] at h
      simp [tryGetOwned, ht, ih h]

theorem tryGetMutOwned_none {t : TypeId} {l : ResMap} (h : findRes t l = none) :
    tryGetMutOwned t l = (.error .notFound, l) := by
  induction l with
  | nil => rfl
  | cons e rest ih =>
    obtain ⟨t0, f0, v0⟩ := e
    by_cases ht : t0 = t
    · simp [findRes, ht] at h
    · simp only [findRes, if_neg ht] at h
      simp [tryGetMutOwned, ht, ih h]

theorem tryGetOwned_found_free {t : TypeId} {l : ResMap} {f : Nat} {v : Val}
    (h : findRes t l = some (f, v)) (hf : f ≠ U32MAX) :
    (tryGetOwned t l).1 = .ok v := by
  induction l with
  | nil => simp [findRes] at h
  | cons e rest ih =>
    obtain ⟨t0, f0, v0⟩ := e
    by_cases ht : t0 = t
    · simp only [findRes, if_pos ht, Option.some.injEq, Prod.mk.injEq] at h
      obtain ⟨hf0, hv0⟩ := h
      subst hf0
      subst hv0
      simp [tryGetOwned, if_pos ht, obtainImmutable, hf]
    · simp only [findRes, if_neg ht] at h
      simp [tryGetOwned, ht, ih h]

theorem tryGetOwned_found_max {t : TypeId} {l : ResMap} {f : Nat} {v : Val}
    (h : findRes t l = some (f, v)) (hf : f = U32MAX) :
    tryGetOwned t l = (.error .alreadyBorrowed, l) := by
  subst hf
  induction l with
  | nil => simp [findRes] at h
  | cons e rest ih =>
    obtain ⟨t0, f0, v0⟩ := e
    by_cases ht : t0 = t
    · simp only [findRes, if_pos ht, Option.some.injEq, Prod.mk.injEq] at h
      obtain ⟨hf0, hv0⟩ := h
      subst hf0
      simp [tryGetOwned, if_pos ht, obtainImmutable]
    · simp only [findRes, if_neg ht] at h
      simp [tryGetOwned, ht, ih h]

theorem tryGetMutOwned_found_zero {t : TypeId} {l : ResMap} {f : Nat} {v : Val}
    (h : findRes t l = some (f, v)) (hf : f = 0) :
    (tryGetMutOwned t l).1 = .ok v := by
  subst hf
  induction l with
  | nil => simp [findRes] at h
  | cons e rest ih =>
    obtain ⟨t0, f0, v0⟩ := e
    by_cases ht : t0 = t
    · simp only [findRes, if_pos ht, Option.some.injEq, Prod.mk.injEq] at h
      obtain ⟨hf0, hv0⟩ := h
      subst hf0
      subst hv0
      simp [tryGetMutOwned, if_pos ht, obtainMutable]
    · simp only [findRes, if_neg ht] at h
      simp [tryGetMutOwned, ht, ih h]

theorem tryGetMutOwned_found_nonzero {t : TypeId} {l : ResMap} {f : Nat} {v : Val}
    (h : findRes t l = some (f, v)) (hf : f ≠ 0) :
    tryGetMutOwned t l = (.error .alreadyBorrowed, l) := by
  induction l with
  | nil => simp [findRes] at h
  | cons e rest ih =>
    obtain ⟨t0, f0, v0⟩ := e
    by_cases ht : t0 = t
    · simp only [findRes, if_pos ht, Option.some.injEq, Prod.mk.injEq] at h
      obtain ⟨hf0, hv0⟩ := h
      subst hf0
      simp [tryGetMutOwned, if_pos ht, obtainMutable, hf]
    · simp only [findRes, if_neg ht] at h
      simp [tryGetMutOwned, ht, ih h]

/-- C6: insert-then-get round-trip on OwnedResources.  Inserting v under
type-key t and then reading t yields v (the insert installs a fresh free
borrow flag, so the read's borrow succeeds), and a later insert under the
same key replaces any earlier entry. -/
theorem c6_insert_then_get (r : ResMap) (t : TypeId) (v : Val) :
    (tryGetOwned t (insertRes t v r)).1 = .ok v ∧
    getOwned t (insertRes t v r) = some v ∧
    ∀ v1 : Val, insertRes t v (insertRes t v1 r) = insertRes t v r := by
  have h1 : (tryGetOwned t (insertRes t v r)).1 = .ok v := by
    induction r with
    | nil => simp [insertRes, tryGetOwned, obtainImmutable, U32MAX]
    | cons e rest ih =>
      obtain ⟨t0, f0, v0⟩ := e
      by_cases h : t0 = t
      · subst h
        simp [insertRes, tryGetOwned, obtainImmutable, U32MAX]
      · simp [insertRes, h, tryGetOwned, ih]
  refine ⟨h1, by simp [getOwned, h1], ?_⟩
  intro v1
  clear h1
  induction r with
  | nil => simp [insertRes]
  | cons e rest ih =>
    obtain ⟨t0, f0, v0⟩ := e
    by_cases h : t0 = t
    · subst h
      simp [insertRes]
    · simp [insertRes, h, ih]

/-- C7: looking up a type-key that was never inserted returns NotFound from
try_get and try_get_mut and leaves the container unchanged, and the
panicking accessors get / get_mut abort (modelled as `none`). -/
theorem c7_absent_resource (r : ResMap) (t : TypeId) (h : ∀ e ∈ r, e.1 ≠ t) :
    tryGetOwned t r = (.error .notFound, r) ∧
    tryGetMutOwned t r = (.error .notFound, r) ∧
    getOwned t r = none ∧ getMutOwned t r = none := by
  have hf := findRes_none_of h
  have h1 := tryGetOwned_none hf
  have h2 := tryGetMutOwned_none hf
  exact ⟨h1, h2, by simp [getOwned, h1], by simp [getMutOwned, h2]⟩

theorem c7_absent_resource_witness :
    tryGetOwned 0 [(1, 0, 5)] = (.error .notFound, [(1, 0, 5)]) ∧
    tryGetMutOwned 0 [(1, 0, 5)] = (.error .notFound, [(1, 0, 5)]) ∧
    getOwned 0 [(1, 0, 5)] = none ∧ getMutOwned 0 [(1, 0, 5)] = none :=
  c7_absent_resource [(1, 0, 5)] 0 (by decide)

instance exceptDecEq {ε α : Type} [DecidableEq ε] [DecidableEq α] :
    DecidableEq (Except ε α) := fun a b =>
  match a, b with
  | .ok x, .ok y =>
    if h : x = y then .isTrue (h ▸ rfl)
    else .isFalse fun hc => h (Except.ok.inj hc)
  | .ok _, .error _ => .isFalse fun hc => Except.noConfusion hc
  | .error _, .ok _ => .isFalse fun hc => Except.noConfusion hc
  | .error e, .error e2 =>
    if h : e = e2 then .isTrue (h ▸ rfl)
    else .isFalse fun hc => h (Except.error.inj hc)

/-- C3 counterexample: the claim says a lookup whose type-key is present in
the aliased set is resolved entirely by the aliased entry, returning
AlreadyBorrowed on a borrow conflict and never the inner container's entry
or error.  But `or_else` falls through to the inner container on ANY
failure: with the aliased entry for key 0 mutably borrowed (flag u32::MAX)
and a free inner entry 9, try_get returns the inner value 9; with the
aliased entry borrowed (flag 3) and an empty inner container, try_get_mut
returns the inner container's NotFound. -/
theorem c3_fallthrough_counterexample :
    (tryGetRef 0 ⟨[(0, U32MAX, 7)], [(0, 0, 9)]⟩).1 = .ok 9 ∧
    (tryGetRef 0 ⟨[(0, U32MAX, 7)], [(0, 0, 9)]⟩).1 ≠ .error .alreadyBorrowed ∧
    (tryGetMutRef 0 ⟨[(0, 3, 7)], []⟩).1 = .error .notFound ∧
    (tryGetMutRef 0 ⟨[(0, 3, 7)], []⟩).1 ≠ .error .alreadyBorrowed := by
  decide

/-- C3 amended: RefResources lookup probes the aliased set first and falls
through to the inner container on any failure of that probe — a missing
key or a borrow conflict on the aliased entry — while a successful aliased
borrow returns the aliased entry's value without touching the inner
container. -/
theorem c3_layered_lookup (t : TypeId) (r : RefRes) :
    (findRes t r.refs = none →
      tryGetRef t r =
        ((tryGetOwned t r.inner).1, ⟨r.refs, (tryGetOwned t r.inner).2⟩) ∧
      tryGetMutRef t r =
        ((tryGetMutOwned t r.inner).1, ⟨r.refs, (tryGetMutOwned t r.inner).2⟩)) ∧
    (∀ f v, findRes t r.refs = some (f, v) → f ≠ U32MAX →
      (tryGetRef t r).1 = .ok v ∧ (tryGetRef t r).2.inner = r.inner) ∧
    (∀ f v, findRes t r.refs = some (f, v) → f = U32MAX →
      tryGetRef t r =
        ((tryGetOwned t r.inner).1, ⟨r.refs, (tryGetOwned t r.inner).2⟩)) ∧
    (∀ f v, findRes t r.refs = some (f, v) → f = 0 →
      (tryGetMutRef t r).1 = .ok v ∧ (tryGetMutRef t r).2.inner = r.inner) ∧
    (∀ f v, findRes t r.refs = some (f, v) → f ≠ 0 →
      tryGetMutRef t r =
        ((tryGetMutOwned t r.inner).1, ⟨r.refs, (tryGetMutOwned t r.inner).2⟩)) := by
  refine ⟨fun hn => ?_, fun f v hs hf => ?_, fun f v hs hf => ?_,
    fun f v hs hf => ?_, fun f v hs hf => ?_⟩
  · constructor
    · simp [tryGetRef, tryGetOwned_none hn]
    · simp [tryGetMutRef, tryGetMutOwned_none hn]
  · have h1 := tryGetOwned_found_free hs hf
    rcases hres : tryGetOwned t r.refs with ⟨a, b⟩
    rw [hres] at h1
    dsimp only at h1
    subst h1
    simp [tryGetRef, hres]
  · simp [tryGetRef, tryGetOwned_found_max hs hf]
  · have h1 := tryGetMutOwned_found_zero hs hf
    rcases hres : tryGetMutOwned t r.refs with ⟨a, b⟩
    rw [hres] at h1
    dsimp only at h1
    subst h1
    simp [tryGetMutRef, hres]
  · simp [tryGetMutRef, tryGetMutOwned_found_nonzero hs hf]

theorem c3_layered_lookup_witness :
    (tryGetRef 0 ⟨[(1, 0, 5)], [(0, 0, 9)]⟩ =
      ((tryGetOwned 0 [(0, 0, 9)]).1,
        ⟨[(1, 0, 5)], (tryGetOwned 0 [(0, 0, 9)]).2⟩) ∧
     tryGetMutRef 0 ⟨[(1, 0, 5)], [(0, 0, 9)]⟩ =
      ((tryGetMutOwned 0 [(0, 0, 9)]).1,
        ⟨[(1, 0, 5)], (tryGetMutOwned 0 [(0, 0, 9)]).2⟩)) ∧
    (tryGetRef 0 ⟨[(0, 0, 7)], []⟩).1 = .ok 7 := by
  constructor
  · exact (c3_layered_lookup 0 ⟨[(1, 0, 5)], [(0, 0, 9)]⟩).1 (by decide)
  · exact ((c3_layered_lookup 0 ⟨[(0, 0, 7)], []⟩).2.1 0 7 (by decide) (by decide)).1

/-! ## Model of src/erased_vec.rs: ErasedVec

The struct fields: erased pointer, capacity, length, element layout
(size, align).  The pointer is abstracted as a Nat address. -/

structure ErasedVec where
  ptr : Nat
  capacity : Nat
  len : Nat
  layout : Nat × Nat
deriving DecidableEq, Repr

/-- ErasedVec::clear: the whole body is `self.len = 0;`. -/
def ErasedVec.clear (v : ErasedVec) : ErasedVec := { v with len := 0 }

/-- C8: ErasedVec::clear sets the length to zero and changes nothing else —
pointer, capacity and element layout are untouched, so no reallocation or
deallocation happens and the stored bytes (and hence the previous
elements) are left in place with no per-element teardown. -/
theorem c8_clear_frame (v : ErasedVec) :
    v.clear.len = 0 ∧ v.clear.ptr = v.ptr ∧ v.clear.capacity = v.capacity ∧
    v.clear.layout = v.layout ∧ v.clear = ⟨v.ptr, v.capacity, 0, v.layout⟩ :=
  ⟨rfl, rfl, rfl, rfl, rfl⟩

/-! ## Model of src/world/allocator.rs: EntityIndexAllocator

The free list is a VecDeque: `free` pops the head (pop_front is modelled by
matching the head) and `freeIndex` appends at the tail (push_back).  The
u32 counter bump wraps modulo 2^32. -/

structure EntityIndexAllocator where
  free : List Nat
  next : Nat
deriving DecidableEq, Repr

/-- EntityIndexAllocator::new. -/
def EntityIndexAllocator.new : EntityIndexAllocator := ⟨[], 0⟩

/-- EntityIndexAllocator::alloc: pop the oldest free index if any, else
`self.next += 1; self.next - 1` (wrapping u32 arithmetic). -/
def alloc : EntityIndexAllocator → Nat × EntityIndexAllocator
  | ⟨[], next⟩ =>
    let next1 := (next + 1) % U32MOD
    ((next1 + (U32MOD - 1)) % U32MOD, ⟨[], next1⟩)
  | ⟨i :: rest, next⟩ => (i, ⟨rest, next⟩)

/-- EntityIndexAllocator::free: push_back onto the free queue. -/
def freeIndex (a : EntityIndexAllocator) (index : Nat) : EntityIndexAllocator :=
  ⟨a.free ++ [index], a.next⟩

/-- C9: FIFO reuse of freed entity indices.  The concrete call sequence
alloc, alloc, alloc, free 1, alloc, alloc returns 0, 1, 2, 1, 3; in
general alloc pops the oldest entry of the free queue when it is
non-empty, and otherwise returns the bumped monotonic counter value. -/
theorem c9_allocator_fifo :
    ((alloc EntityIndexAllocator.new).1 = 0 ∧
     (alloc (alloc EntityIndexAllocator.new).2).1 = 1 ∧
     (alloc (alloc (alloc EntityIndexAllocator.new).2).2).1 = 2 ∧
     (alloc (freeIndex (alloc (alloc (alloc EntityIndexAllocator.new).2).2).2 1)).1 = 1 ∧
     (alloc (alloc (freeIndex (alloc (alloc (alloc
       EntityIndexAllocator.new).2).2).2 1)).2).1 = 3) ∧
    (∀ (i : Nat) (rest : List Nat) (next : Nat),
      alloc ⟨i :: rest, next⟩ = (i, ⟨rest, next⟩)) ∧
    (∀ next : Nat, next < U32MAX →
      alloc ⟨([] : List Nat), next⟩ = (next, ⟨[], next + 1⟩)) := by
  refine ⟨by decide, fun i rest next => rfl, fun next h => ?_⟩
  unfold U32MAX at h
  have h1 : (next + 1) % U32MOD = next + 1 := by
    apply Nat.mod_eq_of_lt
    unfold U32MOD
    omega
  simp only [alloc, h1]
  have h2 : (next + 1 + (U32MOD - 1)) % U32MOD = next := by
    unfold U32MOD
    omega
  rw [h2]

theorem c9_allocator_fifo_witness :
    alloc ⟨([] : List Nat), 5⟩ = (5, ⟨[], 6⟩) ∧
    alloc ⟨7 :: [9], 3⟩ = (7, ⟨[9], 3⟩) :=
  ⟨c9_allocator_fifo.2.2 5 (by decide), c9_allocator_fifo.2.1 7 [9] 3⟩

/-! ## Model of src/system.rs: event stores, handlers, Executor::handle_events

Event type keys and event values are abstracted as Nat.  An EventStore is
the per-context map from event-type-key to its ErasedVec of queued values,
modelled as an association list of buckets (distinct keys).  A handler's
behaviour is its emission function: the list of (type, value) events it
triggers, in order, given the batch it receives.  Dispatch is given a fuel
bound (the recursion through handler emissions need not terminate in
general); it returns the trace of handler invocations and the final store,
or `none` when fuel runs out. -/

abbrev EvType := Nat

abbrev EvVal := Nat

abbrev EventStore := List (EvType × List EvVal)

/-- EventStore::extend: append the values to the bucket of the entry for
the type-key, inserting an empty bucket first if the key is new
(`entry(..).or_insert_with(ErasedVec::new).extend(events)`). -/
def storeExtend (ty : EvType) (vs : List EvVal) : EventStore → EventStore
  | [] => [(ty, vs)]
  | (t, b) :: rest =>
    if t = ty then (t, b ++ vs) :: rest else (t, b) :: storeExtend ty vs rest

/-- A handler, reduced to its observable emission behaviour: the events it
triggers into its fresh context, in order, given the received batch. -/
structure Handler where
  emits : List EvVal → List (EvType × EvVal)

/-- EventHandlerStore: per event-type-key, the handlers in registration
order. -/
abbrev HandlerStore := List (EvType × List Handler)

/-- EventHandlerStore lookup: handlers registered for a type-key, empty
when none are (`if let Some(handlers) = self.handlers.get(..)`). -/
def getHandlers : HandlerStore → EvType → List Handler
  | [], _ => []
  | (t, hs) :: rest, ty => if t = ty then hs else getHandlers rest ty

/-- The context built by a sequence of single-event triggers
(SystemCtx::trigger = trigger_batched(once(event)) = events.extend(..)). -/
def emitAll (ems : List (EvType × EvVal)) : EventStore :=
  ems.foldl (fun s e => storeExtend e.1 [e.2] s) []

/-- One handler invocation observed during a drain: the event type, the
handler's index in its registration list, and the batch it received. -/
structure Invocation where
  ty : EvType
  idx : Nat
  batch : List EvVal
deriving DecidableEq, Repr

/-- EventHandlerStore::handle, parameterized by the recursive drain
`dispatch` applied to each handler's fresh context: invoke the handlers in
registration order; after each handler runs, its context is drained
depth-first before the next handler is invoked. -/
def runHandlersAux (dispatch : EventStore → Option (List Invocation × EventStore)) :
    List Handler → EvType → Nat → List EvVal → Option (List Invocation)
  | [], _, _, _ => some []
  | h :: hs, ty, i, batch =>
    match dispatch (emitAll (h.emits batch)) with
    | none => none
    | some (sub, _) =>
      match runHandlersAux dispatch hs ty (i + 1) batch with
      | none => none
      | some rest => some (⟨ty, i, batch⟩ :: (sub ++ rest))

/-- The bucket loop of Executor::handle_events: skip zero-length buckets,
dispatch each non-empty bucket to its handlers, and clear the bucket
afterwards. -/
def drainBucketsAux (store : HandlerStore)
    (dispatch : EventStore → Option (List Invocation × EventStore)) :
    EventStore → Option (List Invocation × EventStore)
  | [] => some ([], [])
  | (ty, vs) :: rest =>
    if vs.isEmpty then
      match drainBucketsAux store dispatch rest with
      | none => none
      | some (tr, rest1) => some (tr, (ty, vs) :: rest1)
    else
      match runHandlersAux dispatch (getHandlers store ty) ty 0 vs with
      | none => none
      | some tr =>
        match drainBucketsAux store dispatch rest with
        | none => none
        | some (tr2, rest1) => some (tr ++ tr2, (ty, []) :: rest1)

/-- Executor::handle_events with a fuel bound on the dispatch depth. -/
def handleEvents (store : HandlerStore) : Nat → EventStore → Option (List Invocation × EventStore)
  | 0, _ => none
  | fuel + 1, buckets => drainBucketsAux store (handleEvents store fuel) buckets

theorem handleEvents_succ (store : HandlerStore) (n : Nat) (b : EventStore) :
    handleEvents store (n + 1) b = drainBucketsAux store (handleEvents store n) b :=
  rfl

/-- C4: depth-first recursive event dispatch.  With a handler for EventA
emitting EventB, a handler for EventB emitting EventC, and a handler for
EventC emitting nothing, a system emission of EventA produces the handler
invocation order A, B, C; the second conjunct shows that dispatching B
alone already drains C completely, so C is fully drained inside A's
dispatch before the outer drain proceeds. -/
theorem c4_depth_first_dispatch (a b c : EvType) (va vb vc : EvVal)
    (hab : a ≠ b) (hac : a ≠ c) (hbc : b ≠ c) (fuel : Nat) :
    handleEvents
        [(a, [⟨fun _ => [(b, vb)]⟩]), (b, [⟨fun _ => [(c, vc)]⟩]),
          (c, [⟨fun _ => []⟩])]
        (fuel + 1 + 1 + 1 + 1) (emitAll [(a, va)]) =
      some ([⟨a, 0, [va]⟩, ⟨b, 0, [vb]⟩, ⟨c, 0, [vc]⟩], [(a, [])]) ∧
    handleEvents
        [(a, [⟨fun _ => [(b, vb)]⟩]), (b, [⟨fun _ => [(c, vc)]⟩]),
          (c, [⟨fun _ => []⟩])]
        (fuel + 1 + 1 + 1) (emitAll [(b, vb)]) =
      some ([⟨b, 0, [vb]⟩, ⟨c, 0, [vc]⟩], [(b, [])]) := by
  constructor <;>
    simp [handleEvents_succ, drainBucketsAux, runHandlersAux, getHandlers,
      emitAll, storeExtend, hab, hac, hbc]

theorem c4_depth_first_dispatch_witness :
    handleEvents
        [(0, [⟨fun _ => [(1, 4)]⟩]), (1, [⟨fun _ => [(2, 5)]⟩]),
          (2, [⟨fun _ => []⟩])]
        (0 + 1 + 1 + 1 + 1) (emitAll [(0, 3)]) =
      some ([⟨0, 0, [3]⟩, ⟨1, 0, [4]⟩, ⟨2, 0, [5]⟩], [(0, [])]) :=
  (c4_depth_first_dispatch 0 1 2 3 4 5 (by decide) (by decide) (by decide) 0).1

/-- Every invocation in a trace received a non-empty batch. -/
def TraceNonEmpty (tr : List Invocation) : Prop :=
  ∀ inv ∈ tr, inv.batch ≠ []

theorem runHandlersAux_batch_nonempty
    {d : EventStore → Option (List Invocation × EventStore)}
    (hd : ∀ ctx r, d ctx = some r → TraceNonEmpty r.1)
    {hs : List Handler} {ty : EvType} {i : Nat} {batch : List EvVal}
    {tr : List Invocation} (hb : batch ≠ [])
    (h : runHandlersAux d hs ty i batch = some tr) : TraceNonEmpty tr := by
  induction hs generalizing i tr with
  | nil =>
    simp only [runHandlersAux, Option.some.injEq] at h
    subst h
    intro inv hm
    simp at hm
  | cons hh rest ih =>
    simp only [runHandlersAux] at h
    cases hsub : d (emitAll (hh.emits batch)) with
    | none => rw [hsub] at h; exact Option.noConfusion h
    | some r =>
      obtain ⟨sub, st⟩ := r
      rw [hsub] at h
      cases hrest : runHandlersAux d rest ty (i + 1) batch with
      | none => rw [hrest] at h; exact Option.noConfusion h
      | some tr2 =>
        rw [hrest] at h
        simp only [Option.some.injEq] at h
        subst h
        intro inv hm
        rcases List.mem_cons.mp hm with hm1 | hm2
        · subst hm1; exact hb
        · rcases List.mem_append.mp hm2 with hm3 | hm4
          · exact hd _ _ hsub inv hm3
          · exact ih hrest inv hm4

theorem drainBucketsAux_batch_nonempty
    {store : HandlerStore}
    {d : EventStore → Option (List Invocation × EventStore)}
    (hd : ∀ ctx r, d ctx = some r → TraceNonEmpty r.1)
    {buckets : EventStore} {tr : List Invocation} {st : EventStore}
    (h : drainBucketsAux store d buckets = some (tr, st)) : TraceNonEmpty tr := by
  induction buckets generalizing tr st with
  | nil =>
    simp only [drainBucketsAux, Option.some.injEq, Prod.mk.injEq] at h
    obtain ⟨h1, _⟩ := h
    subst h1
    intro inv hm
    simp at hm
  | cons b rest ih =>
    obtain ⟨ty, vs⟩ := b
    simp only [drainBucketsAux] at h
    by_cases he : vs.isEmpty
    · rw [if_pos he] at h
      cases hrest : drainBucketsAux store d rest with
      | none => rw [hrest] at h; exact Option.noConfusion h
      | some r =>
        obtain ⟨tr2, rest1⟩ := r
        rw [hrest] at h
        simp only [Option.some.injEq, Prod.mk.injEq] at h
        obtain ⟨h1, _⟩ := h
        subst h1
        exact ih hrest
    · rw [if_neg he] at h
      cases hrun : runHandlersAux d (getHandlers store ty) ty 0 vs with
      | none => rw [hrun] at h; exact Option.noConfusion h
      | some tr1 =>
        rw [hrun] at h
        cases hrest : drainBucketsAux store d rest with
        | none => rw [hrest] at h; exact Option.noConfusion h
        | some r =>
          obtain ⟨tr2, rest1⟩ := r
          rw [hrest] at h
          simp only [Option.some.injEq, Prod.mk.injEq] at h
          obtain ⟨h1, _⟩ := h
          subst h1
          intro inv hm
          rcases List.mem_append.mp hm with hm1 | hm2
          · have hvs : vs ≠ [] := by
              intro hc
              subst hc
              simp at he
            exact runHandlersAux_batch_nonempty hd hvs hrun inv hm1
          · exact ih hrest inv hm2

theorem handleEvents_batch_nonempty (store : HandlerStore) :
    ∀ (fuel : Nat) (ctx : EventStore) (r : List Invocation × EventStore),
      handleEvents store fuel ctx = some r → TraceNonEmpty r.1 := by
  intro fuel
  induction fuel with
  | zero => intro ctx r h; exact Option.noConfusion h
  | succ n ih =>
    intro ctx r h
    obtain ⟨tr, st⟩ := r
    exact drainBucketsAux_batch_nonempty (fun ctx2 r2 h2 => ih ctx2 r2 h2) h

theorem drainBucketsAux_no_handlers
    {store : HandlerStore}
    {d : EventStore → Option (List Invocation × EventStore)}
    {buckets : EventStore}
    (h : ∀ b ∈ buckets, getHandlers store b.1 = []) :
    drainBucketsAux store d buckets =
      some ([], buckets.map fun b => (b.1, ([] : List EvVal))) := by
  induction buckets with
  | nil => rfl
  | cons b rest ih =>
    obtain ⟨ty, vs⟩ := b
    have hrest := ih fun b hb => h b (List.mem_cons_of_mem _ hb)
    have hhead : getHandlers store ty = [] := h (ty, vs) (List.mem_cons_self _ _)
    simp only [drainBucketsAux]
    by_cases he : vs.isEmpty
    · rw [if_pos he, hrest]
      have hvs : vs = [] := by
        cases vs
        · rfl
        · simp at he
      subst hvs
      simp
    · rw [if_neg he, hhead]
      simp only [runHandlersAux]
      rw [hrest]
      simp

theorem runHandlersAux_handled {store : HandlerStore}
    {d : EventStore → Option (List Invocation × EventStore)}
    (hd : ∀ ctx r, d ctx = some r → ∀ inv ∈ r.1, getHandlers store inv.ty ≠ [])
    {hs : List Handler} {ty : EvType} {batch : List EvVal}
    (hne : getHandlers store ty ≠ []) :
    ∀ {i : Nat} {tr : List Invocation},
      runHandlersAux d hs ty i batch = some tr →
      ∀ inv ∈ tr, getHandlers store inv.ty ≠ [] := by
  induction hs with
  | nil =>
    intro i tr h inv hm
    simp only [runHandlersAux, Option.some.injEq] at h
    subst h
    simp at hm
  | cons hh rest ih =>
    intro i tr h inv hm
    simp only [runHandlersAux] at h
    cases hsub : d (emitAll (hh.emits batch)) with
    | none => rw [hsub] at h; exact Option.noConfusion h
    | some r =>
      obtain ⟨sub, st⟩ := r
      rw [hsub] at h
      cases hrest : runHandlersAux d rest ty (i + 1) batch with
      | none => rw [hrest] at h; exact Option.noConfusion h
      | some tr2 =>
        rw [hrest] at h
        simp only [Option.some.injEq] at h
        subst h
        rcases List.mem_cons.mp hm with h1 | h2
        · subst h1; exact hne
        · rcases List.mem_append.mp h2 with h3 | h4
          · exact hd _ _ hsub inv h3
          · exact ih hrest inv h4

theorem drainBucketsAux_handled {store : HandlerStore}
    {d : EventStore → Option (List Invocation × EventStore)}
    (hd : ∀ ctx r, d ctx = some r → ∀ inv ∈ r.1, getHandlers store inv.ty ≠ []) :
    ∀ {buckets : EventStore} {tr : List Invocation} {st : EventStore},
      drainBucketsAux store d buckets = some (tr, st) →
      ∀ inv ∈ tr, getHandlers store inv.ty ≠ [] := by
  intro buckets
  induction buckets with
  | nil =>
    intro tr st h inv hm
    simp only [drainBucketsAux, Option.some.injEq, Prod.mk.injEq] at h
    obtain ⟨h1, _⟩ := h
    subst h1
    simp at hm
  | cons b rest ih =>
    obtain ⟨ty, vs⟩ := b
    intro tr st h inv hm
    simp only [drainBucketsAux] at h
    by_cases he : vs.isEmpty
    · rw [if_pos he] at h
      cases hrest : drainBucketsAux store d rest with
      | none => rw [hrest] at h; exact Option.noConfusion h
      | some r =>
        obtain ⟨tr2, rest1⟩ := r
        rw [hrest] at h
        simp only [Option.some.injEq, Prod.mk.injEq] at h
        obtain ⟨h1, _⟩ := h
        subst h1
        exact ih hrest inv hm
    · rw [if_neg he] at h
      cases hrun : runHandlersAux d (getHandlers store ty) ty 0 vs with
      | none => rw [hrun] at h; exact Option.noConfusion h
      | some tr1 =>
        rw [hrun] at h
        cases hrest : drainBucketsAux store d rest with
        | none => rw [hrest] at h; exact Option.noConfusion h
        | some r =>
          obtain ⟨tr2, rest1⟩ := r
          rw [hrest] at h
          simp only [Option.some.injEq, Prod.mk.injEq] at h
          obtain ⟨h1, _⟩ := h
          subst h1
          have htr1 : ∀ inv2 ∈ tr1, getHandlers store inv2.ty ≠ [] := by
            cases hhs : getHandlers store ty with
            | nil =>
              rw [hhs] at hrun
              simp only [runHandlersAux, Option.some.injEq] at hrun
              subst hrun
              intro inv2 hm2
              simp at hm2
            | cons a as =>
              exact runHandlersAux_handled hd (by rw [hhs]; simp) hrun
          rcases List.mem_append.mp hm with h3 | h4
          · exact htr1 inv h3
          · exact ih hrest inv h4

theorem handleEvents_handled (store : HandlerStore) :
    ∀ (fuel : Nat) (ctx : EventStore) (r : List Invocation × EventStore),
      handleEvents store fuel ctx = some r →
      ∀ inv ∈ r.1, getHandlers store inv.ty ≠ [] := by
  intro fuel
  induction fuel with
  | zero => intro ctx r h; exact Option.noConfusion h
  | succ n ih =>
    intro ctx r h
    obtain ⟨tr, st⟩ := r
    exact drainBucketsAux_handled (fun ctx2 r2 h2 => ih ctx2 r2 h2) h

theorem drainBucketsAux_clears {store : HandlerStore}
    {d : EventStore → Option (List Invocation × EventStore)} :
    ∀ {buckets : EventStore} {tr : List Invocation} {st : EventStore},
      drainBucketsAux store d buckets = some (tr, st) →
      (∀ b ∈ st, b.2 = ([] : List EvVal)) ∧
      st.map Prod.fst = buckets.map Prod.fst := by
  intro buckets
  induction buckets with
  | nil =>
    intro tr st h
    simp only [drainBucketsAux, Option.some.injEq, Prod.mk.injEq] at h
    obtain ⟨_, h2⟩ := h
    subst h2
    exact ⟨fun b hb => by simp at hb, rfl⟩
  | cons b rest ih =>
    obtain ⟨ty, vs⟩ := b
    intro tr st h
    simp only [drainBucketsAux] at h
    by_cases he : vs.isEmpty
    · rw [if_pos he] at h
      cases hrest : drainBucketsAux store d rest with
      | none => rw [hrest] at h; exact Option.noConfusion h
      | some r =>
        obtain ⟨tr2, rest1⟩ := r
        rw [hrest] at h
        simp only [Option.some.injEq, Prod.mk.injEq] at h
        obtain ⟨_, h2⟩ := h
        subst h2
        obtain ⟨ihb, ihk⟩ := ih hrest
        have hvs : vs = [] := by
          cases vs
          · rfl
          · simp at he
        refine ⟨fun b hb => ?_, by simp [ihk]⟩
        rcases List.mem_cons.mp hb with h3 | h4
        · subst h3; exact hvs
        · exact ihb b h4
    · rw [if_neg he] at h
      cases hrun : runHandlersAux d (getHandlers store ty) ty 0 vs with
      | none => rw [hrun] at h; exact Option.noConfusion h
      | some tr1 =>
        rw [hrun] at h
        cases hrest : drainBucketsAux store d rest with
        | none => rw [hrest] at h; exact Option.noConfusion h
        | some r =>
          obtain ⟨tr2, rest1⟩ := r
          rw [hrest] at h
          simp only [Option.some.injEq, Prod.mk.injEq] at h
          obtain ⟨_, h2⟩ := h
          subst h2
          obtain ⟨ihb, ihk⟩ := ih hrest
          refine ⟨fun b hb => ?_, by simp [ihk]⟩
          rcases List.mem_cons.mp hb with h3 | h4
          · subst h3; rfl
          · exact ihb b h4

/-- C10: a drain never invokes a handler on an empty batch (every
invocation in any trace of handle_events carries a non-empty batch); in
any drain of any context — mixed handled and unhandled types included —
no handler call is ever made for a type with no registered handlers, and
every bucket of the context is still present and cleared afterwards, so a
non-empty bucket of an unhandled type is dropped without being observed;
when no type in the context has handlers the whole drain succeeds with an
empty trace and all buckets cleared. -/
theorem c10_empty_and_unhandled (store : HandlerStore) :
    (∀ (fuel : Nat) (ctx : EventStore) (tr : List Invocation) (st : EventStore),
      handleEvents store fuel ctx = some (tr, st) → ∀ inv ∈ tr, inv.batch ≠ []) ∧
    (∀ (fuel : Nat) (ctx : EventStore) (tr : List Invocation) (st : EventStore),
      handleEvents store fuel ctx = some (tr, st) →
        ∀ inv ∈ tr, getHandlers store inv.ty ≠ []) ∧
    (∀ (fuel : Nat) (ctx : EventStore) (tr : List Invocation) (st : EventStore),
      handleEvents store fuel ctx = some (tr, st) →
        (∀ b ∈ st, b.2 = ([] : List EvVal)) ∧
        st.map Prod.fst = ctx.map Prod.fst) ∧
    (∀ (fuel : Nat) (ctx : EventStore),
      (∀ b ∈ ctx, getHandlers store b.1 = []) →
      handleEvents store (fuel + 1) ctx =
        some ([], ctx.map fun b => (b.1, ([] : List EvVal)))) := by
  refine ⟨?_, ?_, ?_, ?_⟩
  · intro fuel ctx tr st h
    exact handleEvents_batch_nonempty store fuel ctx (tr, st) h
  · intro fuel ctx tr st h
    exact handleEvents_handled store fuel ctx (tr, st) h
  · intro fuel ctx tr st h
    cases fuel with
    | zero => exact Option.noConfusion h
    | succ n => exact drainBucketsAux_clears h
  · intro fuel ctx h
    exact drainBucketsAux_no_handlers h

theorem c10_empty_and_unhandled_witness :
    handleEvents [(0, [⟨fun _ => ([] : List (EvType × EvVal))⟩])] 2
        [(0, [7]), (1, [8])] = some ([⟨0, 0, [7]⟩], [(0, []), (1, [])]) ∧
    (∀ inv ∈ [(⟨0, 0, [7]⟩ : Invocation)], inv.batch ≠ []) ∧
    (∀ inv ∈ [(⟨0, 0, [7]⟩ : Invocation)],
      getHandlers [(0, [⟨fun _ => ([] : List (EvType × EvVal))⟩])] inv.ty ≠ []) ∧
    (∀ b ∈ [((0 : EvType), ([] : List EvVal)), (1, [])],
      b.2 = ([] : List EvVal)) ∧
    handleEvents ([] : HandlerStore) (0 + 1) [(2, [9])] =
      some ([], [(2, [])]) := by
  have h : handleEvents [(0, [⟨fun _ => ([] : List (EvType × EvVal))⟩])] 2
      [(0, [7]), (1, [8])] = some ([⟨0, 0, [7]⟩], [(0, []), (1, [])]) := rfl
  refine ⟨h, ?_, ?_, ?_, ?_⟩
  · exact (c10_empty_and_unhandled
      [(0, [⟨fun _ => ([] : List (EvType × EvVal))⟩])]).1 2
      [(0, [7]), (1, [8])] [⟨0, 0, [7]⟩] [(0, []), (1, [])] h
  · exact (c10_empty_and_unhandled
      [(0, [⟨fun _ => ([] : List (EvType × EvVal))⟩])]).2.1 2
      [(0, [7]), (1, [8])] [⟨0, 0, [7]⟩] [(0, []), (1, [])] h
  · exact ((c10_empty_and_unhandled
      [(0, [⟨fun _ => ([] : List (EvType × EvVal))⟩])]).2.2.1 2
      [(0, [7]), (1, [8])] [⟨0, 0, [7]⟩] [(0, []), (1, [])] h).1
  · exact (c10_empty_and_unhandled ([] : HandlerStore)).2.2.2 0 [(2, [9])]
      (fun b _ => rfl)

/-- The values of one event type among a list of emissions, in emission
order. -/
def bucketOf (ems : List (EvType × EvVal)) (ty : EvType) : List EvVal :=
  (ems.filter fun e => e.1 == ty).map fun e => e.2

/-- First bucket stored under an event type key. -/
def lookupBucket : EventStore → EvType → Option (List EvVal)
  | [], _ => none
  | (t, b) :: rest, ty => if t = ty then some b else lookupBucket rest ty

theorem storeExtend_lookup (t : EvType) (vs : List EvVal) (s : EventStore)
    (ty : EvType) :
    lookupBucket (storeExtend t vs s) ty =
      if t = ty then some ((lookupBucket s ty).getD [] ++ vs)
      else lookupBucket s ty := by
  induction s with
  | nil =>
    by_cases h : t = ty
    · subst h
      simp [storeExtend, lookupBucket]
    · simp [storeExtend, lookupBucket, h]
  | cons e rest ih =>
    obtain ⟨u, b⟩ := e
    by_cases hu : u = t
    · subst hu
      simp only [storeExtend, if_pos rfl]
      by_cases h : u = ty
      · subst h
        simp [lookupBucket]
      · simp [lookupBucket, h]
    · simp only [storeExtend, if_neg hu]
      by_cases h : u = ty
      · subst h
        have ht : ¬ t = u := fun hc => hu hc.symm
        simp [lookupBucket, if_neg ht]
      · simp only [lookupBucket, if_neg h]
        exact ih

theorem bucketOf_cons (e : EvType × EvVal) (rest : List (EvType × EvVal))
    (ty : EvType) :
    bucketOf (e :: rest) ty =
      if e.1 = ty then e.2 :: bucketOf rest ty else bucketOf rest ty := by
  by_cases h : e.1 = ty
  · simp [bucketOf, List.filter_cons, h]
  · simp [bucketOf, List.filter_cons, h]

theorem lookup_foldl (ems : List (EvType × EvVal)) (s : EventStore) (ty : EvType) :
    lookupBucket (ems.foldl (fun st e => storeExtend e.1 [e.2] st) s) ty =
      if bucketOf ems ty = [] then lookupBucket s ty
      else some ((lookupBucket s ty).getD [] ++ bucketOf ems ty) := by
  induction ems generalizing s with
  | nil => simp [bucketOf]
  | cons e rest ih =>
    simp only [List.foldl_cons]
    rw [ih, bucketOf_cons]
    by_cases h : e.1 = ty
    · rw [if_pos h, storeExtend_lookup, if_pos h]
      by_cases hb : bucketOf rest ty = []
      · simp [hb]
      · simp only [hb, if_neg hb]
        have hne : ¬ e.2 :: bucketOf rest ty = [] := by simp
        rw [if_neg hne]
        simp
    · rw [if_neg h, storeExtend_lookup, if_neg h]

theorem lookup_emitAll (ems : List (EvType × EvVal)) (ty : EvType) :
    lookupBucket (emitAll ems) ty =
      if bucketOf ems ty = [] then none else some (bucketOf ems ty) := by
  unfold emitAll
  rw [lookup_foldl]
  by_cases h : bucketOf ems ty = []
  · simp [h, lookupBucket]
  · simp [h, lookupBucket]

theorem storeExtend_keys (t : EvType) (vs : List EvVal) (s : EventStore) :
    (storeExtend t vs s).map Prod.fst =
      if t ∈ s.map Prod.fst then s.map Prod.fst
      else s.map Prod.fst ++ [t] := by
  induction s with
  | nil => simp [storeExtend]
  | cons e rest ih =>
    obtain ⟨u, b⟩ := e
    by_cases hu : u = t
    · subst hu
      simp [storeExtend]
    · have ht : ¬ t = u := fun hc => hu hc.symm
      simp only [storeExtend, if_neg hu, List.map_cons, List.mem_cons]
      rw [ih]
      by_cases h : t ∈ rest.map Prod.fst
      · simp [h, ht]
      · simp [h, ht]

theorem storeExtend_nodup (t : EvType) (vs : List EvVal) (s : EventStore)
    (h : (s.map Prod.fst).Nodup) : ((storeExtend t vs s).map Prod.fst).Nodup := by
  rw [storeExtend_keys]
  by_cases hm : t ∈ s.map Prod.fst
  · rw [if_pos hm]; exact h
  · rw [if_neg hm]
    rw [List.nodup_append]
    refine ⟨h, List.nodup_singleton t, ?_⟩
    intro a ha hb
    rw [List.mem_singleton] at hb
    subst hb
    exact hm ha

theorem emitAll_nodup (ems : List (EvType × EvVal)) :
    ((emitAll ems).map Prod.fst).Nodup := by
  unfold emitAll
  have hgen : ∀ s : EventStore, (s.map Prod.fst).Nodup →
      ((ems.foldl (fun st e => storeExtend e.1 [e.2] st) s).map Prod.fst).Nodup := by
    induction ems with
    | nil => intro s hs; exact hs
    | cons e rest ih =>
      intro s hs
      simp only [List.foldl_cons]
      exact ih _ (storeExtend_nodup e.1 [e.2] s hs)
  exact hgen [] (by simp)

/-- The invocations of the `n` handlers of one event type on one batch, in
registration order starting at index `i`. -/
def regTrace (ty : EvType) (i n : Nat) (batch : List EvVal) : List Invocation :=
  match n with
  | 0 => []
  | n + 1 => ⟨ty, i, batch⟩ :: regTrace ty (i + 1) n batch

/-- The trace of one single-level drain: for each non-empty bucket in
order, all its handlers in registration order with the full bucket as the
batch. -/
def flatTrace (store : HandlerStore) : EventStore → List Invocation
  | [] => []
  | (ty, vs) :: rest =>
    (if vs.isEmpty then [] else regTrace ty 0 (getHandlers store ty).length vs)
      ++ flatTrace store rest

/-- All buckets cleared. -/
def clearAll (s : EventStore) : EventStore := s.map fun b => (b.1, [])

/-- A handler store whose registered handlers emit no events. -/
def noEmit (store : HandlerStore) : Prop :=
  ∀ e ∈ store, ∀ h ∈ e.2, ∀ bt : List EvVal, h.emits bt = []

theorem getHandlers_noEmit {store : HandlerStore} (hne : noEmit store)
    (ty : EvType) : ∀ h ∈ getHandlers store ty, ∀ bt : List EvVal, h.emits bt = [] := by
  induction store with
  | nil => intro h hm; simp [getHandlers] at hm
  | cons e rest ih =>
    obtain ⟨t, hs⟩ := e
    intro h hm bt
    simp only [getHandlers] at hm
    by_cases ht : t = ty
    · rw [if_pos ht] at hm
      exact hne (t, hs) (List.mem_cons_self _ _) h hm bt
    · rw [if_neg ht] at hm
      exact ih (fun e he => hne e (List.mem_cons_of_mem _ he)) h hm bt

theorem runHandlersAux_noEmit {store : HandlerStore} {fuel : Nat}
    {hs : List Handler} {ty : EvType} {batch : List EvVal}
    (hne : ∀ h ∈ hs, ∀ bt : List EvVal, h.emits bt = []) (i : Nat) :
    runHandlersAux (handleEvents store (fuel + 1)) hs ty i batch =
      some (regTrace ty i hs.length batch) := by
  induction hs generalizing i with
  | nil => rfl
  | cons h rest ih =>
    have hh : h.emits batch = [] := hne h (List.mem_cons_self _ _) batch
    simp only [runHandlersAux, hh]
    have hdisp : handleEvents store (fuel + 1) (emitAll []) = some ([], []) := rfl
    rw [hdisp]
    rw [ih (fun h2 hm => hne h2 (List.mem_cons_of_mem _ hm)) (i + 1)]
    simp [regTrace]

theorem drainBucketsAux_noEmit {store : HandlerStore} {fuel : Nat}
    (hne : noEmit store) (buckets : EventStore) :
    drainBucketsAux store (handleEvents store (fuel + 1)) buckets =
      some (flatTrace store buckets, clearAll buckets) := by
  induction buckets with
  | nil => rfl
  | cons b rest ih =>
    obtain ⟨ty, vs⟩ := b
    simp only [drainBucketsAux]
    by_cases he : vs.isEmpty
    · rw [if_pos he, ih]
      have hvs : vs = [] := by
        cases vs
        · rfl
        · simp at he
      subst hvs
      simp [flatTrace, clearAll]
    · rw [if_neg he]
      rw [runHandlersAux_noEmit (getHandlers_noEmit hne ty) 0]
      rw [ih]
      simp [flatTrace, clearAll, he]

theorem regTrace_mem {ty : EvType} {n : Nat} {batch : List EvVal}
    {inv : Invocation} :
    ∀ {i : Nat}, inv ∈ regTrace ty i n batch → inv.ty = ty ∧ inv.batch = batch := by
  induction n with
  | zero => intro i h; simp [regTrace] at h
  | succ k ih =>
    intro i h
    rcases List.mem_cons.mp h with h1 | h2
    · subst h1; exact ⟨rfl, rfl⟩
    · exact ih h2

theorem regTrace_filter_self (ty : EvType) (n : Nat) (batch : List EvVal) :
    ∀ i : Nat,
      (regTrace ty i n batch).filter (fun inv => inv.ty == ty) =
        regTrace ty i n batch := by
  induction n with
  | zero => intro i; rfl
  | succ k ih =>
    intro i
    simp only [regTrace, List.filter_cons]
    simp [ih]

theorem regTrace_filter_ne {ty2 ty : EvType} (h : ty2 ≠ ty) (n : Nat)
    (batch : List EvVal) :
    ∀ i : Nat,
      (regTrace ty2 i n batch).filter (fun inv => inv.ty == ty) = [] := by
  induction n with
  | zero => intro i; rfl
  | succ k ih =>
    intro i
    simp only [regTrace, List.filter_cons]
    simp [ih, h]

theorem lookupBucket_none_of_not_mem {s : EventStore} {ty : EvType}
    (h : ty ∉ s.map Prod.fst) : lookupBucket s ty = none := by
  induction s with
  | nil => rfl
  | cons e rest ih =>
    obtain ⟨t, b⟩ := e
    simp only [List.map_cons, List.mem_cons] at h
    push_neg at h
    obtain ⟨h1, h2⟩ := h
    have ht : ¬ t = ty := fun hc => h1 hc.symm
    simp only [lookupBucket, if_neg ht]
    exact ih h2

theorem lookupBucket_of_mem_nodup {s : EventStore} {t : EvType}
    {vs : List EvVal} (hm : (t, vs) ∈ s) (hnd : (s.map Prod.fst).Nodup) :
    lookupBucket s t = some vs := by
  induction s with
  | nil => simp at hm
  | cons e rest ih =>
    obtain ⟨u, b⟩ := e
    simp only [List.map_cons, List.nodup_cons] at hnd
    obtain ⟨hu, hnd2⟩ := hnd
    rcases List.mem_cons.mp hm with h1 | h2
    · obtain ⟨h3, h4⟩ := Prod.mk.injEq .. ▸ h1
      subst h3
      subst h4
      simp [lookupBucket]
    · have hut : ¬ u = t := by
        intro hc
        subst hc
        exact hu (List.mem_map_of_mem Prod.fst h2)
      simp only [lookupBucket, if_neg hut]
      exact ih h2 hnd2

theorem flatTrace_mem {store : HandlerStore} {inv : Invocation} :
    ∀ {buckets : EventStore}, inv ∈ flatTrace store buckets →
      ∃ vs, (inv.ty, vs) ∈ buckets ∧ inv.batch = vs ∧ vs ≠ [] := by
  intro buckets
  induction buckets with
  | nil => intro h; simp [flatTrace] at h
  | cons b rest ih =>
    obtain ⟨ty, vs⟩ := b
    intro h
    simp only [flatTrace] at h
    rcases List.mem_append.mp h with h1 | h2
    · by_cases he : vs.isEmpty
      · rw [if_pos he] at h1
        simp at h1
      · rw [if_neg he] at h1
        obtain ⟨hty, hbatch⟩ := regTrace_mem h1
        refine ⟨vs, ?_, hbatch, ?_⟩
        · rw [hty]; exact List.mem_cons_self _ _
        · intro hc
          subst hc
          simp at he
    · obtain ⟨vs2, hmem, hb, hne⟩ := ih h2
      exact ⟨vs2, List.mem_cons_of_mem _ hmem, hb, hne⟩

theorem flatTrace_filter {store : HandlerStore} {ty : EvType} :
    ∀ {buckets : EventStore}, (buckets.map Prod.fst).Nodup →
      (flatTrace store buckets).filter (fun inv => inv.ty == ty) =
        (match lookupBucket buckets ty with
          | none => []
          | some vs =>
            if vs.isEmpty then []
            else regTrace ty 0 (getHandlers store ty).length vs) := by
  intro buckets
  induction buckets with
  | nil => intro _; rfl
  | cons b rest ih =>
    obtain ⟨t, vs⟩ := b
    intro hnd
    simp only [List.map_cons, List.nodup_cons] at hnd
    obtain ⟨ht, hnd2⟩ := hnd
    simp only [flatTrace, List.filter_append]
    by_cases hty : t = ty
    · subst hty
      have hrest : lookupBucket rest t = none := lookupBucket_none_of_not_mem ht
      have hfr : (flatTrace store rest).filter (fun inv => inv.ty == t) = [] := by
        rw [ih hnd2, hrest]
      have hcons : lookupBucket ((t, vs) :: rest) t = some vs := by
        simp [lookupBucket]
      rw [hfr, hcons]
      by_cases he : vs.isEmpty
      · simp [he]
      · simp [he, regTrace_filter_self]
    · simp only [lookupBucket, if_neg hty]
      have hhead :
          (if vs.isEmpty then ([] : List Invocation)
            else regTrace t 0 (getHandlers store t).length vs).filter
              (fun inv => inv.ty == ty) = [] := by
        by_cases he : vs.isEmpty
        · rw [if_pos he]; rfl
        · rw [if_neg he]
          exact regTrace_filter_ne hty (getHandlers store t).length vs 0
      rw [hhead]
      simp only [List.nil_append]
      exact ih hnd2

/-- C5: batch content and handler ordering of one drain.  For a system
whose emissions are `ems` (in order) dispatched against a store of
non-emitting handlers: the drain succeeds and produces exactly the
single-level trace; every invocation's batch is the complete list of that
type's emitted values in emission order (homogeneous, never empty); the
invocations for any one type are exactly its registered handlers, each
invoked once, in registration order (indices 0,1,…), all on the same full
batch; and every bucket of the context is cleared afterwards. -/
theorem c5_batch_content_and_order (store : HandlerStore)
    (ems : List (EvType × EvVal)) (fuel : Nat) (hne : noEmit store) :
    handleEvents store (fuel + 1 + 1) (emitAll ems) =
      some (flatTrace store (emitAll ems), clearAll (emitAll ems)) ∧
    (∀ inv ∈ flatTrace store (emitAll ems),
      inv.batch = bucketOf ems inv.ty ∧ inv.batch ≠ []) ∧
    (∀ ty : EvType,
      (flatTrace store (emitAll ems)).filter (fun inv => inv.ty == ty) =
        if bucketOf ems ty = [] then []
        else regTrace ty 0 (getHandlers store ty).length (bucketOf ems ty)) ∧
    (∀ b ∈ clearAll (emitAll ems), b.2 = ([] : List EvVal)) := by
  refine ⟨?_, ?_, ?_, ?_⟩
  · rw [handleEvents_succ]
    exact drainBucketsAux_noEmit hne (emitAll ems)
  · intro inv h
    obtain ⟨vs, hmem, hbatch, hvs⟩ := flatTrace_mem h
    have hl := lookupBucket_of_mem_nodup hmem (emitAll_nodup ems)
    rw [lookup_emitAll] at hl
    by_cases hb : bucketOf ems inv.ty = []
    · rw [if_pos hb] at hl
      exact Option.noConfusion hl
    · rw [if_neg hb] at hl
      have hveq : bucketOf ems inv.ty = vs := Option.some.inj hl
      exact ⟨hbatch.trans hveq.symm, hbatch ▸ hvs⟩
  · intro ty
    rw [flatTrace_filter (emitAll_nodup ems), lookup_emitAll]
    by_cases hb : bucketOf ems ty = []
    · rw [if_pos hb, if_pos hb]
    · rw [if_neg hb, if_neg hb]
      cases hbb : bucketOf ems ty with
      | nil => exact absurd hbb hb
      | cons x xs => simp [hbb]
  · intro b hb
    simp only [clearAll, List.mem_map] at hb
    obtain ⟨b2, _, hb2⟩ := hb
    rw [← hb2]

theorem c5_batch_content_and_order_witness :
    handleEvents [(0, [⟨fun _ => ([] : List (EvType × EvVal))⟩])] (0 + 1 + 1)
        (emitAll [(0, 10), (0, 20)]) =
      some
        (flatTrace [(0, [⟨fun _ => ([] : List (EvType × EvVal))⟩])]
          (emitAll [(0, 10), (0, 20)]),
        clearAll (emitAll [(0, 10), (0, 20)])) := by
  have hne : noEmit [(0, [⟨fun _ => ([] : List (EvType × EvVal))⟩])] := by
    intro e he h hm bt
    rw [List.mem_singleton] at he
    subst he
    rw [List.mem_singleton] at hm
    subst hm
    rfl
  exact (c5_batch_content_and_order _ [(0, 10), (0, 20)] 0 hne).1
